import Mathlib

/-!
Verification of `git_utils.py`, a client that locates and retrieves CI build
artifacts from a remote API.  The Python source is shallowly embedded below:
pure logic becomes Lean functions, the process-terminating / sleeping behaviour
of the rate-limit governor becomes an explicit event trace, and the fallible
URL parser returns an `Option`.  The HTTP transport, JSON parsing and the
archive-extraction primitive are external collaborators: functions here take
the already-parsed response data as input, exactly as the corresponding Python
code consumes it after `r.json()` / `r.headers`.
-/

namespace GitUtils

/-! ### `unique` (git_utils.py lines 13-20)

`unique` builds `unique_list` by traversing the input and appending each
element that is not already present.  `uniqueAux acc xs` is that loop with
accumulator `acc`. -/

/-- Loop of `unique`: traverse `xs`, appending to `acc` each element not yet in
`acc` (`if x not in unique_list: unique_list.append(x)`). -/
def uniqueAux {α : Type _} [DecidableEq α] (acc : List α) : List α → List α
  | [] => acc
  | x :: xs => if x ∈ acc then uniqueAux acc xs else uniqueAux (acc ++ [x]) xs

/-- `unique(duplist)` from git_utils.py: run the loop with an empty
`unique_list`. -/
def unique {α : Type _} [DecidableEq α] (l : List α) : List α := uniqueAux [] l

/-- Reference recursion used in proofs: keep the head, drop its later
duplicates, recurse.  `unique` is proved equal to this below. -/
def dedupFirst {α : Type _} [DecidableEq α] : List α → List α
  | [] => []
  | x :: xs => x :: dedupFirst (xs.filter (fun y => decide (y ≠ x)))
termination_by l => l.length
decreasing_by
  simp only [List.length_cons]
  exact Nat.lt_succ_of_le (List.length_filter_le _ xs)

/-- Index of the first occurrence of `a` in a list (length of the list when
absent); used to state the order-of-first-occurrence property of `unique`. -/
def firstIdx {α : Type _} [DecidableEq α] (a : α) : List α → Nat
  | [] => 0
  | x :: xs => if x = a then 0 else firstIdx a xs + 1

/-! ### Commit / artifact matching (git_utils.py lines 133-147)

`get_most_recent_action_url` builds a Python dict
`{artifact['workflow_run']['head_sha']: artifact['archive_download_url']}`
(last write wins on duplicate keys) and returns the value of the first commit,
in the given order, whose sha is a key.  A Python dict built by a comprehension
is modelled as a lookup function built by a left fold of single-key updates. -/

/-- A commit as consumed by the matcher: only `commit['sha']` is read. -/
structure Commit where
  sha : String
deriving DecidableEq

/-- An artifact entry: `name`, `workflow_run.head_sha` and
`archive_download_url` are the fields git_utils.py reads. -/
structure Artifact where
  name : String
  workflow_run_head_sha : String
  archive_download_url : String
deriving DecidableEq

/-- A workflow run entry: `name`, `head_sha` and `html_url` are the fields
git_utils.py reads. -/
structure WorkflowRun where
  name : String
  head_sha : String
  html_url : String
deriving DecidableEq

/-- The empty Python dict, as a lookup function. -/
def emptyDict : String → Option String := fun _ => none

/-- `d[k] = v`: a single dict update (shadowing any earlier binding of `k`). -/
def dictInsert (d : String → Option String) (kv : String × String) :
    String → Option String :=
  fun k => if k = kv.1 then some kv.2 else d k

/-- The dict a Python comprehension builds from the key/value pairs in `l`,
in order: a later pair with the same key overwrites an earlier one. -/
def dictOfList (l : List (String × String)) : String → Option String :=
  l.foldl dictInsert emptyDict

/-- The scan loop shared by `get_most_recent_action_url` and
`get_most_recent_action_page`: return the dict value of the first sha that is
a key, `none` when the loop falls through. -/
def scanShas (d : String → Option String) : List String → Option String
  | [] => none
  | sha :: rest =>
    match d sha with
    | some v => some v
    | none => scanShas d rest

/-- The key/value pairs of the dict comprehension in
`get_most_recent_action_url` (line 137). -/
def artifactEntries (artifacts : List Artifact) : List (String × String) :=
  artifacts.map fun a => (a.workflow_run_head_sha, a.archive_download_url)

/-- `get_most_recent_action_url(commits, artifacts)` (lines 136-140). -/
def get_most_recent_action_url (commits : List Commit)
    (artifacts : List Artifact) : Option String :=
  scanShas (dictOfList (artifactEntries artifacts)) (commits.map Commit.sha)

/-- The key/value pairs of the dict comprehension in
`get_most_recent_action_page` (line 144), which first filters runs to
`run['name'] == 'gds'`. -/
def runEntries (runs : List WorkflowRun) : List (String × String) :=
  (runs.filter (fun r => r.name == "gds")).map fun r => (r.head_sha, r.html_url)

/-- `get_most_recent_action_page(commits, runs)` (lines 143-147). -/
def get_most_recent_action_page (commits : List Commit)
    (runs : List WorkflowRun) : Option String :=
  scanShas (dictOfList (runEntries runs)) (commits.map Commit.sha)

/-- Specification-side description of a last-write-wins mapping: the value of
the last pair in `entries` whose key is `k`. -/
def lastValue (entries : List (String × String)) (k : String) : Option String :=
  match entries with
  | [] => none
  | e :: rest =>
    match lastValue rest k with
    | some v => some v
    | none => if k = e.1 then some e.2 else none

/-- Specification-side property: `v` is the mapped value of the first sha of
`shas` that is a key of the last-write-wins mapping of `entries`, every
earlier sha being unmapped. -/
def FirstKeyedValue (entries : List (String × String)) (shas : List String)
    (v : String) : Prop :=
  ∃ pre sha post, shas = pre ++ sha :: post ∧
    (∀ x ∈ pre, lastValue entries x = none) ∧ lastValue entries sha = some v

/-! ### `split_git_url` (git_utils.py lines 150-158)

`urlparse` is Python standard library (an external collaborator); the embedded
function consumes the already-parsed path component `urlparse(url).path`, as a
character list.  `res.path.split('/')` must yield exactly three parts or the
`ValueError` handler calls `exit(1)` (modelled as `none`); the repo part then
has every occurrence of `".git"` removed by `repo.replace('.git', '')`. -/

/-- Python `path.split('/')` on a character list: splitting on every slash,
keeping empty parts (`""` splits to `[""]`). -/
def splitOnSlash : List Char → List (List Char)
  | [] => [[]]
  | c :: rest =>
    if c = '/' then [] :: splitOnSlash rest
    else
      match splitOnSlash rest with
      | [] => [[c]]
      | s :: ss => (c :: s) :: ss

/-- Python `s.replace('.git', '')`: one left-to-right pass removing each
non-overlapping occurrence of `".git"`. -/
def replaceDotGit : List Char → List Char
  | '.' :: 'g' :: 'i' :: 't' :: rest => replaceDotGit rest
  | c :: rest => c :: replaceDotGit rest
  | [] => []

/-- Whether the pattern `".git"` occurs somewhere in the list. -/
def containsDotGit : List Char → Bool
  | '.' :: 'g' :: 'i' :: 't' :: _ => true
  | _ :: rest => containsDotGit rest
  | [] => false

/-- `split_git_url`, applied to the parsed path of the URL.  `none` models the
`exit(1)` in the `ValueError` handler of `_, user_name, repo =
res.path.split('/')`. -/
def split_git_url (path : List Char) : Option (List Char × List Char) :=
  match splitOnSlash path with
  | [_, user_name, repo] => some (user_name, replaceDotGit repo)
  | _ => none

/-! ### Rate-limit governor (git_utils.py lines 35-70)

`check_status` exits the process on HTTP 401.  `check_rate_limit` reads the
quota headers (already converted by `int(...)`; absent headers give the
sentinels `-1` / `-1` / maxsize), builds a diagnostic string, optionally
sleeps, and exits the process when no requests remain.  Sleeping and exiting
are modelled as an event trace.  Line 50 reads the `content-length` header
WITHOUT an `int(...)` conversion, so when the header is present line 51
compares a `str` with `0`, raising `TypeError` before any throttle logic; the
raw header is therefore kept as `Option String` and its presence produces a
`typeErr` event ending the trace. -/

/-- Observable effects of the governor on one response: a thread sleep of `d`
seconds, a process exit (`exit(1)`), or an uncaught `TypeError`. -/
inductive GovEvent where
  | sleep (d : ℚ)
  | exitProc
  | typeErr
deriving DecidableEq

/-- Line 54-56: `when = int(reset - time.time()); if when < 0: when = 0`. -/
def secondsToReset (reset now : Int) : Int :=
  if reset - now < 0 then 0 else reset - now

/-- Line 62: `delay = (when / remaining) + 1`, in exact rational
arithmetic (Python computes this as a float). -/
def throttleDelay (remaining reset now : Int) : ℚ :=
  (secondsToReset reset now : ℚ) / (remaining : ℚ) + 1

/-- Event trace of `check_rate_limit(r)` for a response with the given parsed
quota headers, raw `content-length` header and current time. -/
def check_rate_limit_events (remaining limit reset : Int)
    (contentLengthHeader : Option String) (now : Int) : List GovEvent :=
  match contentLengthHeader with
  | some _ => [GovEvent.typeErr]
  | none =>
    (if 0 < remaining ∧ remaining < 100 ∧ 0 < secondsToReset reset now then
      (if 0 < throttleDelay remaining reset now ∧ throttleDelay remaining reset now < 10
       then [GovEvent.sleep (throttleDelay remaining reset now)] else [])
     else []) ++
    (if remaining = 0 then [GovEvent.exitProc] else [])

/-- `check_status(r)` (lines 35-38): `True` means the process exits. -/
def check_status_fatal (statusCode : Int) : Bool := statusCode == 401

/-- The per-response sequence used at every call site (e.g. lines 117-118):
`check_status(r)` first, then `check_rate_limit(r)`. -/
def observe_response (statusCode remaining limit reset : Int)
    (contentLengthHeader : Option String) (now : Int) : List GovEvent :=
  if check_status_fatal statusCode then [GovEvent.exitProc]
  else check_rate_limit_events remaining limit reset contentLengthHeader now

/-! ### Credential resolution (git_utils.py lines 75-101)

`headers_try_to_add_authorization_from_environment` reads environment
variables (`os.getenv(name, '')`: an absent variable and an empty one are the
same) and either stores a `Bearer` or `Basic` authorization header value, or
stores nothing and prints a warning.  The environment is a record of the five
variables read; the result is the header value stored, `none` when none is. -/

/-- The five environment variables the resolver reads; `""` stands for an
absent variable, exactly as `os.getenv(name, '')` delivers it. -/
structure Env where
  GH_TOKEN : String
  GITHUB_TOKEN : String
  GH_USERNAME : String
  GITHUB_ACTOR : String
  GH_PASSWORD : String
deriving DecidableEq

/-- The base64 alphabet, used by the model of Python's `base64` module. -/
def base64Alphabet : List Char :=
  "ABCDEFGHIJKLMNOPQRSTUVWXYZabcdefghijklmnopqrstuvwxyz0123456789+/".data

/-- Character for a six-bit value. -/
def b64char (n : Nat) : Char := base64Alphabet.getD n 'A'

/-- Standard base64 encoding of a byte list (model of `base64.b64encode`). -/
def b64encodeBytes : List Nat → List Char
  | [] => []
  | [b1] => [b64char (b1 / 4), b64char (b1 % 4 * 16), '=', '=']
  | [b1, b2] =>
    [b64char (b1 / 4), b64char (b1 % 4 * 16 + b2 / 16), b64char (b2 % 16 * 4), '=']
  | b1 :: b2 :: b3 :: rest =>
    b64char (b1 / 4) :: b64char (b1 % 4 * 16 + b2 / 16) ::
      b64char (b2 % 16 * 4 + b3 / 64) :: b64char (b3 % 64) :: b64encodeBytes rest

/-- Base64-encode the ASCII bytes of a string and read the result back as a
string: `base64.b64encode(s.encode('ascii')).decode('ascii')`. -/
def b64encodeString (s : String) : String :=
  String.mk (b64encodeBytes (s.data.map Char.toNat))

/-- Lines 76-78: `gh_token = os.getenv('GH_TOKEN', '')`, falling back to
`GITHUB_TOKEN` when that is falsy (empty). -/
def resolved_token (env : Env) : String :=
  if env.GH_TOKEN = "" then env.GITHUB_TOKEN else env.GH_TOKEN

/-- Lines 88-90: `gh_username = os.getenv('GH_USERNAME', '')`, falling back to
`GITHUB_ACTOR` when that is falsy (empty). -/
def resolved_username (env : Env) : String :=
  if env.GH_USERNAME = "" then env.GITHUB_ACTOR else env.GH_USERNAME

/-- `headers_try_to_add_authorization_from_environment(headers)`: the
authorization header value stored, or `none` when only the warning is printed
(the function then returns `False` without raising). -/
def headers_try_to_add_authorization_from_environment (env : Env) :
    Option String :=
  if (resolved_token env).length > 0 then
    some ("Bearer " ++ resolved_token env)
  else if (resolved_username env).length > 0 ∧ env.GH_PASSWORD.length > 0 then
    some ("Basic " ++
      b64encodeString (resolved_username env ++ ":" ++ env.GH_PASSWORD))
  else
    none

/-! ### `fetch_file_from_git` content handling (git_utils.py lines 103-130)

After the transport and the status/rate checks, the function inspects the
parsed JSON `data`: no `content` key gives `None`; `encoding == 'base64'`
decodes the content with `base64.b64decode`; anything else returns the content
string verbatim. -/

/-- Six-bit value of a base64 character: its index in the alphabet. -/
def b64charVal (c : Char) : Nat := base64Alphabet.findIdx (fun x => x == c)

/-- Standard base64 decoding (model of `base64.b64decode` on well-formed
input): four characters give three bytes, `=` padding gives one or two. -/
def b64decode : List Char → List Nat
  | c1 :: c2 :: c3 :: c4 :: rest =>
    if c3 = '=' then
      [b64charVal c1 * 4 + b64charVal c2 / 16]
    else if c4 = '=' then
      [b64charVal c1 * 4 + b64charVal c2 / 16,
       b64charVal c2 % 16 * 16 + b64charVal c3 / 4]
    else
      [b64charVal c1 * 4 + b64charVal c2 / 16,
       b64charVal c2 % 16 * 16 + b64charVal c3 / 4,
       b64charVal c3 % 4 * 64 + b64charVal c4] ++ b64decode rest
  | _ => []

/-- The fields of the contents-API response that lines 120-130 read: `content`
(absent when the key is missing) and `encoding`. -/
structure ContentResponse where
  content : Option String
  encoding : Option String
deriving DecidableEq

/-- Result of `fetch_file_from_git`: decoded bytes, or the verbatim content
string. -/
inductive FetchedContent where
  | bytes (bs : List Nat)
  | text (s : String)
deriving DecidableEq

/-- `fetch_file_from_git` content handling (lines 120-130), as a function of
the parsed response. -/
def fetch_file_from_git (data : ContentResponse) : Option FetchedContent :=
  match data.content with
  | none => none
  | some c =>
    if data.encoding = some "base64" then some (FetchedContent.bytes (b64decode c.data))
    else some (FetchedContent.text c)

/-! ### `install_artifacts` (git_utils.py lines 162-219)

Two pieces are claim-relevant.  (1) Lines 187-197: selecting the artifacts
named `"GDS"` from the parsed artifacts response, with two fatal exits.
(2) Lines 203-219: the download/unpack retry loop `attempts = 1; while
attempts < max_attempts (= 3): try ... break; except BadZipFile: attempts += 1`
followed by `if attempts == max_attempts: exit(1)`.  The loop is embedded with
the decreasing measure `maxAttempts - attempts` as fuel; one loop-body
execution is one download attempt. -/

/-- Outcome of the artifact-selection step (lines 187-197). -/
inductive ArtifactsCheck where
  | fatalNoArtifact
  | fatalNoneForProject
  | proceed (gds : List Artifact)
deriving DecidableEq

/-- Lines 187-197: `none` models a response without an `'artifacts'` key;
otherwise filter to names equal to `"GDS"` and exit when the filter is empty. -/
def install_artifacts_select (data : Option (List Artifact)) : ArtifactsCheck :=
  match data with
  | none => ArtifactsCheck.fatalNoArtifact
  | some arts =>
    if (arts.filter (fun a => a.name == "GDS")).length = 0 then
      ArtifactsCheck.fatalNoneForProject
    else ArtifactsCheck.proceed (arts.filter (fun a => a.name == "GDS"))

/-- Body of the download loop.  `good attempts` tells whether the download on
the iteration with counter value `attempts` yields a valid zip archive (a
corrupt one raises `BadZipFile`).  `fuel` is `maxAttempts - attempts`, so
`fuel = 0` is exactly the loop condition `attempts < max_attempts` failing.
Returns (loop-body executions, final `attempts` value, whether `break` ran). -/
def installLoopAux (good : Nat → Bool) : Nat → Nat → Nat × Nat × Bool
  | attempts, 0 => (0, attempts, false)
  | attempts, fuel + 1 =>
    if good attempts then (1, attempts, true)
    else
      let r := installLoopAux good (attempts + 1) fuel
      (r.1 + 1, r.2)

/-- The download loop of `install_artifacts` started with counter `attempts`
and bound `maxAttempts` (source: `attempts = 1`, `max_attempts = 3`). -/
def install_download_loop (good : Nat → Bool) (attempts maxAttempts : Nat) :
    Nat × Nat × Bool :=
  installLoopAux good attempts (maxAttempts - attempts)

/-- Outcome of lines 203-219: success after `downloads` download attempts, or
the fatal `"gave up downloading zipfile"` exit. -/
inductive InstallResult where
  | success (downloads : Nat)
  | gaveUp
deriving DecidableEq

/-- Lines 203-219 of `install_artifacts`: run the loop, then
`if attempts == max_attempts: exit(1)`. -/
def install_artifacts_download (good : Nat → Bool) : InstallResult :=
  let r := install_download_loop good 1 3
  if r.2.1 = 3 then InstallResult.gaveUp else InstallResult.success r.1

/-! ## Lemmas about `unique` -/

lemma uniqueAux_eq {α : Type _} [DecidableEq α] :
    ∀ (xs acc : List α),
      uniqueAux acc xs = acc ++ dedupFirst (xs.filter (fun y => decide (y ∉ acc)))
  | [], acc => by simp [uniqueAux, dedupFirst]
  | x :: xs, acc => by
    by_cases hx : x ∈ acc
    · rw [uniqueAux, if_pos hx, uniqueAux_eq xs acc]
      have : (List.filter (fun y => decide (y ∉ acc)) (x :: xs)) =
          List.filter (fun y => decide (y ∉ acc)) xs := by
        simp [List.filter, hx]
      rw [this]
    · rw [uniqueAux, if_neg hx, uniqueAux_eq xs (acc ++ [x])]
      have h1 : List.filter (fun y => decide (y ∉ acc)) (x :: xs) =
          x :: List.filter (fun y => decide (y ∉ acc)) xs := by
        simp [List.filter, hx]
      have h2 : List.filter (fun y => decide (y ∉ acc ++ [x])) xs =
          List.filter (fun y => decide (y ≠ x))
            (List.filter (fun y => decide (y ∉ acc)) xs) := by
        rw [List.filter_filter]
        apply List.filter_congr
        intro a _
        by_cases hax : a = x
        · simp [hax]
        · by_cases haacc : a ∈ acc <;> simp [hax, haacc]
      rw [h1, dedupFirst, h2]
      simp

lemma unique_eq_dedupFirst {α : Type _} [DecidableEq α] (l : List α) :
    unique l = dedupFirst l := by
  rw [unique, uniqueAux_eq]
  have : List.filter (fun y : α => decide (y ∉ ([] : List α))) l = l := by
    apply List.filter_eq_self.mpr
    intro a _
    simp
  rw [this]
  simp

lemma mem_dedupFirst {α : Type _} [DecidableEq α] :
    ∀ (l : List α) (a : α), a ∈ dedupFirst l ↔ a ∈ l := by
  intro l
  induction l using dedupFirst.induct with
  | case1 => intro a; simp [dedupFirst]
  | case2 x xs ih =>
    intro a
    rw [dedupFirst]
    simp only [List.mem_cons, ih, List.mem_filter, decide_eq_true_eq]
    constructor
    · rintro (rfl | ⟨hmem, -⟩)
      · exact Or.inl rfl
      · exact Or.inr hmem
    · rintro (rfl | hmem)
      · exact Or.inl rfl
      · by_cases hax : a = x
        · exact Or.inl hax
        · exact Or.inr ⟨hmem, hax⟩

lemma dedupFirst_nodup {α : Type _} [DecidableEq α] :
    ∀ l : List α, (dedupFirst l).Nodup := by
  intro l
  induction l using dedupFirst.induct with
  | case1 => simp [dedupFirst]
  | case2 x xs ih =>
    rw [dedupFirst]
    refine List.nodup_cons.mpr ⟨?_, ih⟩
    intro hx
    rw [mem_dedupFirst, List.mem_filter] at hx
    simpa using hx.2

lemma dedupFirst_sublist {α : Type _} [DecidableEq α] :
    ∀ l : List α, (dedupFirst l).Sublist l := by
  intro l
  induction l using dedupFirst.induct with
  | case1 => simp [dedupFirst]
  | case2 x xs ih =>
    rw [dedupFirst]
    exact (ih.trans (List.filter_sublist xs)).cons₂ x

lemma firstIdx_cons_self {α : Type _} [DecidableEq α] (a : α) (l : List α) :
    firstIdx a (a :: l) = 0 := by
  simp [firstIdx]

lemma firstIdx_cons_ne {α : Type _} [DecidableEq α] {a x : α} (l : List α)
    (h : x ≠ a) : firstIdx a (x :: l) = firstIdx a l + 1 := by
  simp [firstIdx, h]

lemma firstIdx_filter_lt {α : Type _} [DecidableEq α] (p : α → Bool) :
    ∀ (xs : List α) (a b : α), a ∈ xs.filter p → b ∈ xs.filter p →
      firstIdx a (xs.filter p) < firstIdx b (xs.filter p) →
      firstIdx a xs < firstIdx b xs := by
  intro xs
  induction xs with
  | nil => intro a b ha; simp at ha
  | cons y ys ih =>
    intro a b ha hb hlt
    by_cases hp : p y = true
    · rw [List.filter_cons_of_pos hp] at ha hb hlt
      by_cases hya : y = a
      · subst hya
        rw [firstIdx_cons_self] at hlt ⊢
        by_cases hyb : y = b
        · subst hyb; rw [firstIdx_cons_self] at hlt; omega
        · rw [firstIdx_cons_ne _ hyb]; omega
      · rw [firstIdx_cons_ne _ hya] at hlt ⊢
        by_cases hyb : y = b
        · subst hyb; rw [firstIdx_cons_self] at hlt; omega
        · rw [firstIdx_cons_ne _ hyb] at hlt ⊢
          have ha2 : a ∈ ys.filter p := by
            rcases List.mem_cons.mp ha with h | h
            · exact absurd h.symm hya
            · exact h
          have hb2 : b ∈ ys.filter p := by
            rcases List.mem_cons.mp hb with h | h
            · exact absurd h.symm hyb
            · exact h
          have := ih a b ha2 hb2 (by omega)
          omega
    · rw [List.filter_cons_of_neg hp] at ha hb hlt
      have hya : y ≠ a := by
        rintro rfl
        exact hp (List.mem_filter.mp ha).2
      have hyb : y ≠ b := by
        rintro rfl
        exact hp (List.mem_filter.mp hb).2
      rw [firstIdx_cons_ne _ hya, firstIdx_cons_ne _ hyb]
      have := ih a b ha hb hlt
      omega

lemma dedupFirst_pairwise {α : Type _} [DecidableEq α] :
    ∀ l : List α, (dedupFirst l).Pairwise (fun a b => firstIdx a l < firstIdx b l) := by
  intro l
  induction l using dedupFirst.induct with
  | case1 => simp [dedupFirst]
  | case2 x xs ih =>
    rw [dedupFirst]
    refine List.pairwise_cons.mpr ⟨?_, ?_⟩
    · intro b hb
      have hbf : b ∈ xs.filter (fun y => decide (y ≠ x)) :=
        (mem_dedupFirst _ b).mp hb
      have hbx : x ≠ b := by
        have := (List.mem_filter.mp hbf).2
        simp at this
        exact fun he => this he.symm
      rw [firstIdx_cons_self, firstIdx_cons_ne _ hbx]
      omega
    · refine List.Pairwise.imp_of_mem ?_ ih
      intro a b ha hb hlt
      have haf : a ∈ xs.filter (fun y => decide (y ≠ x)) := (mem_dedupFirst _ a).mp ha
      have hbf : b ∈ xs.filter (fun y => decide (y ≠ x)) := (mem_dedupFirst _ b).mp hb
      have hxa : x ≠ a := by
        have := (List.mem_filter.mp haf).2; simp at this; exact fun he => this he.symm
      have hxb : x ≠ b := by
        have := (List.mem_filter.mp hbf).2; simp at this; exact fun he => this he.symm
      rw [firstIdx_cons_ne _ hxa, firstIdx_cons_ne _ hxb]
      have := firstIdx_filter_lt _ xs a b haf hbf hlt
      omega

lemma dedupFirst_eq_self {α : Type _} [DecidableEq α] :
    ∀ l : List α, l.Nodup → dedupFirst l = l := by
  intro l
  induction l using dedupFirst.induct with
  | case1 => intro _; simp [dedupFirst]
  | case2 x xs ih =>
    intro hnd
    obtain ⟨hx, hnd2⟩ := List.nodup_cons.mp hnd
    have hf : List.filter (fun y => decide (y ≠ x)) xs = xs := by
      apply List.filter_eq_self.mpr
      intro a ha
      simp
      rintro rfl
      exact hx ha
    rw [hf] at ih
    calc dedupFirst (x :: xs)
        = x :: dedupFirst (List.filter (fun y => decide (y ≠ x)) xs) := by
          simp [dedupFirst]
      _ = x :: dedupFirst xs := by rw [hf]
      _ = x :: xs := by rw [ih hnd2]

/-! ## Lemmas about the commit/artifact matcher -/

lemma foldl_dictInsert (l : List (String × String)) :
    ∀ (d : String → Option String) (k : String),
      (l.foldl dictInsert d) k =
        match lastValue l k with
        | some v => some v
        | none => d k := by
  induction l with
  | nil => intro d k; simp [lastValue]
  | cons e rest ih =>
    intro d k
    rw [List.foldl_cons, ih]
    cases h : lastValue rest k with
    | some v => simp [lastValue, h]
    | none =>
      by_cases hk : k = e.1
      · rw [hk] at h ⊢
        simp [lastValue, h, dictInsert]
      · simp [lastValue, h, dictInsert, hk]

lemma dictOfList_eq_lastValue (l : List (String × String)) (k : String) :
    dictOfList l k = lastValue l k := by
  rw [dictOfList, foldl_dictInsert]
  cases h : lastValue l k <;> simp [emptyDict]

lemma scanShas_eq_some_iff (d : String → Option String) :
    ∀ (shas : List String) (v : String),
      scanShas d shas = some v ↔
        ∃ pre sha post, shas = pre ++ sha :: post ∧
          (∀ x ∈ pre, d x = none) ∧ d sha = some v := by
  intro shas
  induction shas with
  | nil =>
    intro v
    constructor
    · intro h; simp [scanShas] at h
    · rintro ⟨pre, sha, post, habs, -, -⟩
      exact absurd habs (by simp)
  | cons s rest ih =>
    intro v
    constructor
    · intro h
      rw [scanShas] at h
      cases hd : d s with
      | some w =>
        rw [hd] at h
        simp at h
        exact ⟨[], s, rest, rfl, by simp, by rw [hd, h]⟩
      | none =>
        rw [hd] at h
        simp at h
        obtain ⟨pre, sha, post, heq, hpre, hsha⟩ := (ih v).mp h
        refine ⟨s :: pre, sha, post, by simp [heq], ?_, hsha⟩
        intro x hx
        rcases List.mem_cons.mp hx with rfl | hx2
        · exact hd
        · exact hpre x hx2
    · rintro ⟨pre, sha, post, heq, hpre, hsha⟩
      cases pre with
      | nil =>
        simp at heq
        obtain ⟨rfl, rfl⟩ := heq
        rw [scanShas, hsha]
      | cons q pre2 =>
        rw [List.cons_append] at heq
        injection heq with h1 h2
        subst h1
        have hq : d s = none := hpre s (by simp)
        rw [scanShas, hq]
        exact (ih v).mpr ⟨pre2, sha, post, h2,
          fun x hx => hpre x (by simp [hx]), hsha⟩

lemma scanShas_eq_none_iff (d : String → Option String) :
    ∀ shas : List String, scanShas d shas = none ↔ ∀ x ∈ shas, d x = none := by
  intro shas
  induction shas with
  | nil => simp [scanShas]
  | cons s rest ih =>
    rw [scanShas]
    cases hd : d s with
    | some w =>
      simp only []
      constructor
      · intro h; simp at h
      · intro h
        rw [h s (by simp)] at hd
        simp at hd
    | none =>
      simp only [ih]
      constructor
      · intro h x hx
        rcases List.mem_cons.mp hx with rfl | hx2
        · exact hd
        · exact h x hx2
      · intro h x hx
        exact h x (by simp [hx])

/-! ## Lemmas about `split_git_url` -/

lemma splitOnSlash_no_slash :
    ∀ l : List Char, '/' ∉ l → splitOnSlash l = [l] := by
  intro l
  induction l with
  | nil => intro _; rfl
  | cons c rest ih =>
    intro h
    have hc : ¬ c = '/' := fun he => h (by simp [he])
    rw [splitOnSlash, if_neg hc, ih (fun hm => h (by simp [hm]))]

lemma splitOnSlash_append (a b : List Char) (ha : '/' ∉ a) :
    splitOnSlash (a ++ '/' :: b) = a :: splitOnSlash b := by
  induction a with
  | nil => simp [splitOnSlash]
  | cons c rest ih =>
    have hc : ¬ c = '/' := fun he => ha (by simp [he])
    rw [List.cons_append, splitOnSlash, if_neg hc,
      ih (fun hm => ha (by simp [hm]))]

/-- The side condition of the second `replaceDotGit` equation refutes a match
of the pattern at the head of `c :: rest`. -/
lemma no_pattern_head {c : Char} {rest : List Char}
    (hna : ∀ rest1, c = '.' → rest = 'g' :: 'i' :: 't' :: rest1 → False) :
    ¬(c = '.' ∧ rest.take 3 = ['g', 'i', 't']) := by
  rintro ⟨rfl, htake⟩
  rcases rest with _ | ⟨a, _ | ⟨b, _ | ⟨e, tail⟩⟩⟩ <;> simp [List.take] at htake
  obtain ⟨rfl, rfl, rfl⟩ := htake
  exact hna tail rfl rfl

/-- Appending `".git"` cannot create a pattern match at a head where none
was. -/
lemma no_pattern_head_append {c : Char} {rest : List Char}
    (hna : ∀ rest1, c = '.' → rest = 'g' :: 'i' :: 't' :: rest1 → False) :
    ¬(c = '.' ∧ (rest ++ ['.', 'g', 'i', 't']).take 3 = ['g', 'i', 't']) := by
  rintro ⟨rfl, htake⟩
  rcases rest with _ | ⟨a, _ | ⟨b, _ | ⟨e, tail⟩⟩⟩ <;> simp [List.take] at htake
  obtain ⟨rfl, rfl, rfl⟩ := htake
  exact hna tail rfl rfl

lemma replaceDotGit_cons (c : Char) (rest : List Char) :
    replaceDotGit (c :: rest) =
      if c = '.' ∧ rest.take 3 = ['g', 'i', 't'] then replaceDotGit (rest.drop 3)
      else c :: replaceDotGit rest := by
  by_cases hc : c = '.'
  · subst hc
    rcases rest with _ | ⟨a, rest2⟩
    · simp [replaceDotGit, List.take]
    · by_cases ha : a = 'g'
      · subst ha
        rcases rest2 with _ | ⟨b, rest3⟩
        · simp [replaceDotGit, List.take]
        · by_cases hb : b = 'i'
          · subst hb
            rcases rest3 with _ | ⟨e, tail⟩
            · simp [replaceDotGit, List.take]
            · by_cases he : e = 't'
              · subst he
                simp [replaceDotGit, List.take, List.drop]
              · simp [replaceDotGit, List.take, he]
          · simp [replaceDotGit, List.take, hb]
      · simp [replaceDotGit, List.take, ha]
  · simp [replaceDotGit, List.take, hc]

lemma containsDotGit_cons (c : Char) (rest : List Char) :
    containsDotGit (c :: rest) =
      if c = '.' ∧ rest.take 3 = ['g', 'i', 't'] then true
      else containsDotGit rest := by
  by_cases hc : c = '.'
  · subst hc
    rcases rest with _ | ⟨a, rest2⟩
    · simp [containsDotGit, List.take]
    · by_cases ha : a = 'g'
      · subst ha
        rcases rest2 with _ | ⟨b, rest3⟩
        · simp [containsDotGit, List.take]
        · by_cases hb : b = 'i'
          · subst hb
            rcases rest3 with _ | ⟨e, tail⟩
            · simp [containsDotGit, List.take]
            · by_cases he : e = 't'
              · subst he
                simp [containsDotGit, List.take]
              · simp [containsDotGit, List.take, he]
          · simp [containsDotGit, List.take, hb]
      · simp [containsDotGit, List.take, ha]
  · simp [containsDotGit, List.take, hc]

/-- Removing occurrences of `".git"` from `s ++ ".git"` gives the same result
as removing them from `s`: the appended suffix is itself an occurrence and can
never merge with the end of `s` into a different one. -/
lemma replaceDotGit_append_git :
    ∀ s : List Char, replaceDotGit (s ++ ['.', 'g', 'i', 't']) = replaceDotGit s := by
  intro s
  induction s using replaceDotGit.induct with
  | case1 rest ih =>
    show replaceDotGit ('.' :: 'g' :: 'i' :: 't' :: (rest ++ _)) = _
    simp only [replaceDotGit]
    exact ih
  | case2 c rest hna ih =>
    rw [List.cons_append, replaceDotGit_cons,
      if_neg (no_pattern_head_append hna), ih, replaceDotGit_cons,
      if_neg (no_pattern_head hna)]
  | case3 => rfl

/-- On a list with no occurrence of `".git"`, the replacement is the
identity. -/
lemma replaceDotGit_of_not_contains :
    ∀ s : List Char, containsDotGit s = false → replaceDotGit s = s := by
  intro s
  induction s using replaceDotGit.induct with
  | case1 rest ih =>
    intro h
    rw [show containsDotGit ('.' :: 'g' :: 'i' :: 't' :: rest) = true from rfl] at h
    simp at h
  | case2 c rest hna ih =>
    intro h
    rw [containsDotGit_cons, if_neg (no_pattern_head hna)] at h
    rw [replaceDotGit_cons, if_neg (no_pattern_head hna), ih h]
  | case3 => intro _; rfl

/-! ## Lemmas about base64 and the download loop -/

lemma b64char_val : ∀ s : Nat, s < 64 → b64charVal (b64char s) = s := by decide

lemma b64char_ne_pad : ∀ s : Nat, s < 64 → ¬ b64char s = '=' := by decide

/-- `b64decode` is a left inverse of `b64encodeBytes` on byte lists, so the
encoder/decoder pair faithfully models the base64 codec on valid payloads. -/
lemma b64_roundtrip :
    ∀ bs : List Nat, (∀ b ∈ bs, b < 256) → b64decode (b64encodeBytes bs) = bs := by
  intro bs
  induction bs using b64encodeBytes.induct with
  | case1 => intro _; rfl
  | case2 b1 =>
    intro h
    have hb1 : b1 < 256 := h b1 (by simp)
    show b64decode [b64char (b1 / 4), b64char (b1 % 4 * 16), '=', '='] = [b1]
    rw [b64decode.eq_1]
    simp only [reduceIte]
    rw [b64char_val _ (by omega), b64char_val _ (by omega)]
    simp only [List.cons.injEq, and_true]
    omega
  | case3 b1 b2 =>
    intro h
    have hb1 : b1 < 256 := h b1 (by simp)
    have hb2 : b2 < 256 := h b2 (by simp)
    show b64decode [b64char (b1 / 4), b64char (b1 % 4 * 16 + b2 / 16),
      b64char (b2 % 16 * 4), '='] = [b1, b2]
    rw [b64decode.eq_1, if_neg (b64char_ne_pad (b2 % 16 * 4) (by omega))]
    simp only [reduceIte]
    rw [b64char_val _ (by omega), b64char_val _ (by omega), b64char_val _ (by omega)]
    simp only [List.cons.injEq, and_true]
    omega
  | case4 b1 b2 b3 rest ih =>
    intro h
    have hb1 : b1 < 256 := h b1 (by simp)
    have hb2 : b2 < 256 := h b2 (by simp)
    have hb3 : b3 < 256 := h b3 (by simp)
    have hrest : ∀ b ∈ rest, b < 256 := fun b hb => h b (by simp [hb])
    show b64decode (b64char (b1 / 4) :: b64char (b1 % 4 * 16 + b2 / 16) ::
      b64char (b2 % 16 * 4 + b3 / 64) :: b64char (b3 % 64) ::
        b64encodeBytes rest) = b1 :: b2 :: b3 :: rest
    rw [b64decode.eq_1, if_neg (b64char_ne_pad (b2 % 16 * 4 + b3 / 64) (by omega)),
      if_neg (b64char_ne_pad (b3 % 64) (by omega))]
    rw [b64char_val _ (by omega), b64char_val _ (by omega), b64char_val _ (by omega),
      b64char_val _ (by omega), ih hrest]
    simp only [List.cons_append, List.nil_append, List.cons.injEq]
    refine ⟨by omega, by omega, by omega, trivial⟩

lemma installLoopAux_le (good : Nat → Bool) :
    ∀ (fuel attempts : Nat), (installLoopAux good attempts fuel).1 ≤ fuel := by
  intro fuel
  induction fuel with
  | zero => intro attempts; simp [installLoopAux]
  | succ n ih =>
    intro attempts
    simp only [installLoopAux]
    by_cases h : good attempts = true
    · simp [h]
    · simp [h]
      have := ih (attempts + 1)
      omega

/-! ## Remaining helper lemmas -/

lemma string_length_pos (s : String) : 0 < s.length ↔ s ≠ "" := by
  rw [show s.length = s.data.length from rfl, List.length_pos]
  constructor
  · intro h he
    apply h
    rw [he]
  · intro h hd
    exact h (String.ext hd)

/-! ## Claim theorems -/

/-- C10: `unique` returns a list containing each distinct element of its input
exactly once (no duplicates, same membership), in order of first occurrence in
the input (it is a sublist of the input, pairwise ordered by index of first
occurrence); consequently `unique` is idempotent and is the identity on
duplicate-free lists. -/
theorem unique_keeps_first_occurrences {α : Type _} [DecidableEq α] (l : List α) :
    (unique l).Nodup
  ∧ (∀ x : α, x ∈ unique l ↔ x ∈ l)
  ∧ (unique l).Sublist l
  ∧ (unique l).Pairwise (fun a b => firstIdx a l < firstIdx b l)
  ∧ unique (unique l) = unique l
  ∧ (l.Nodup → unique l = l) := by
  have hid : unique (unique l) = unique l := by
    rw [unique_eq_dedupFirst l, unique_eq_dedupFirst (dedupFirst l)]
    exact dedupFirst_eq_self _ (dedupFirst_nodup l)
  rw [unique_eq_dedupFirst l]
  exact ⟨dedupFirst_nodup l, mem_dedupFirst l, dedupFirst_sublist l,
    dedupFirst_pairwise l, by rw [← unique_eq_dedupFirst l]; exact hid,
    fun h => dedupFirst_eq_self l h⟩

/-- C1: the matcher builds a last-write-wins mapping from entry head-sha to
value and returns the value of the first commit, in the given commit order,
whose sha is a key of the mapping; it returns nothing exactly when no commit
sha is a key.  The same holds for the workflow-run variant, and the spec's
example (commits `[c3, c2, c1]` newest first, artifacts keyed `c1 ↦ urlA`,
`c3 ↦ urlC`) yields `urlC`. -/
theorem matcher_returns_first_commit_with_entry :
    (∀ (commits : List Commit) (artifacts : List Artifact) (v : String),
      get_most_recent_action_url commits artifacts = some v ↔
        FirstKeyedValue (artifactEntries artifacts) (commits.map Commit.sha) v)
  ∧ (∀ (commits : List Commit) (artifacts : List Artifact),
      get_most_recent_action_url commits artifacts = none ↔
        ∀ c ∈ commits, lastValue (artifactEntries artifacts) c.sha = none)
  ∧ (∀ (commits : List Commit) (runs : List WorkflowRun) (v : String),
      get_most_recent_action_page commits runs = some v ↔
        FirstKeyedValue (runEntries runs) (commits.map Commit.sha) v)
  ∧ get_most_recent_action_url [⟨"c3"⟩, ⟨"c2"⟩, ⟨"c1"⟩]
      [⟨"GDS", "c1", "urlA"⟩, ⟨"GDS", "c3", "urlC"⟩] = some "urlC" := by
  refine ⟨?_, ?_, ?_, by decide⟩
  · intro commits artifacts v
    rw [get_most_recent_action_url, scanShas_eq_some_iff]
    simp only [dictOfList_eq_lastValue, FirstKeyedValue]
  · intro commits artifacts
    rw [get_most_recent_action_url, scanShas_eq_none_iff]
    simp only [dictOfList_eq_lastValue]
    constructor
    · intro h c hc
      exact h c.sha (List.mem_map_of_mem _ hc)
    · intro h x hx
      obtain ⟨c, hc, rfl⟩ := List.mem_map.mp hx
      exact h c hc
  · intro commits runs v
    rw [get_most_recent_action_page, scanShas_eq_some_iff]
    simp only [dictOfList_eq_lastValue, FirstKeyedValue]

/-- C2 (evaluating the code): starting from `attempts = 1` the loop guard
`attempts < max_attempts` with `max_attempts = 3` admits only two loop-body
executions, i.e. two download attempts.  With the download outcomes "corrupt,
corrupt, valid" (`good n` exactly for `n = 3`) the loop performs 2 downloads,
leaves `attempts = 3` without ever reaching the would-be successful third
attempt, and `install_artifacts` takes the fatal "gave up downloading
zipfile" exit. -/
theorem install_download_gives_up_before_third_attempt :
    install_download_loop (fun n => n == 3) 1 3 = (2, 3, false)
  ∧ install_artifacts_download (fun n => n == 3) = InstallResult.gaveUp
  ∧ (∀ good : Nat → Bool, (install_download_loop good 1 3).1 ≤ 2) := by
  refine ⟨by decide, by decide, fun good => installLoopAux_le good 2 1⟩

/-- C3 counterexample: the repo segment `wid.gitget` does not end in `.git`
(its last four characters are `tget`), yet `split_git_url` returns the name
`widget` rather than the unchanged segment: the inner occurrence of `.git` is
not preserved. -/
theorem split_git_url_changes_non_trailing_occurrence :
    "wid.gitget".data.drop 6 = ['t', 'g', 'e', 't']
  ∧ split_git_url "/acme/wid.gitget".data = some ("acme".data, "widget".data)
  ∧ decide (split_git_url "/acme/wid.gitget".data
      = some ("acme".data, "wid.gitget".data)) = false := by
  exact ⟨by decide, by decide, by decide⟩

/-- C3 amended: on a two-segment path, `split_git_url` removes every
left-to-right occurrence of `.git` from the repo segment (not only a trailing
one).  In particular a path whose repo segment carries a trailing `.git` and
the same path without that suffix still yield the identical (owner, name)
pair, and a repo segment containing no occurrence of `.git` at all is
returned unchanged. -/
theorem split_git_url_removes_all_git_occurrences :
    (∀ owner repo : List Char, '/' ∉ owner → '/' ∉ repo →
      split_git_url ('/' :: owner ++ '/' :: repo) = some (owner, replaceDotGit repo))
  ∧ (∀ owner repo : List Char, '/' ∉ owner → '/' ∉ repo →
      split_git_url ('/' :: owner ++ '/' :: (repo ++ ['.', 'g', 'i', 't'])) =
        split_git_url ('/' :: owner ++ '/' :: repo))
  ∧ (∀ repo : List Char, containsDotGit repo = false → replaceDotGit repo = repo) := by
  have h1 : ∀ owner repo : List Char, '/' ∉ owner → '/' ∉ repo →
      split_git_url ('/' :: owner ++ '/' :: repo) = some (owner, replaceDotGit repo) := by
    intro owner repo howner hrepo
    have hsplit : splitOnSlash ('/' :: owner ++ '/' :: repo) = [[], owner, repo] := by
      rw [List.cons_append]
      rw [show splitOnSlash ('/' :: (owner ++ '/' :: repo)) =
            [] :: splitOnSlash (owner ++ '/' :: repo) from by simp [splitOnSlash]]
      rw [splitOnSlash_append owner repo howner, splitOnSlash_no_slash repo hrepo]
    rw [split_git_url, hsplit]
  refine ⟨h1, ?_, replaceDotGit_of_not_contains⟩
  intro owner repo howner hrepo
  have hrepo2 : '/' ∉ repo ++ ['.', 'g', 'i', 't'] := by
    intro hm
    rcases List.mem_append.mp hm with h | h
    · exact hrepo h
    · simp at h
  rw [h1 owner repo howner hrepo, h1 owner _ howner hrepo2, replaceDotGit_append_git]

/-- C4 counterexample: the parsed path `/acme/` does not have two non-empty
segments (the repo segment is empty), yet `split_git_url` succeeds and
returns the pair `("acme", "")` instead of failing. -/
theorem split_git_url_accepts_empty_segment :
    splitOnSlash "/acme/".data = [[], "acme".data, []]
  ∧ split_git_url "/acme/".data = some ("acme".data, []) := by
  exact ⟨by decide, by decide⟩

/-- C4 amended: `split_git_url` fails (the `exit(1)` in the `ValueError`
handler, modelled as `none`) exactly when the parsed path does not split on
`/` into exactly three parts; the parts are not required to be non-empty.
The check is a pure computation on the URL, performed before any network
capability is used. -/
theorem split_git_url_requires_exactly_three_parts (path : List Char) :
    (split_git_url path).isSome ↔ (splitOnSlash path).length = 3 := by
  rcases h : splitOnSlash path with _ | ⟨a, _ | ⟨b, _ | ⟨c, _ | ⟨e, tl⟩⟩⟩⟩ <;>
    simp [split_git_url, h]

/-- C5 (evaluating the code at the failing input, and the intended throttle
condition elsewhere): when the response carries a `content-length` header the
governor raises `TypeError` at the string/int comparison of line 51 before
any throttle logic — in particular at the claim's own worked example
(`remaining = 50`, `reset = now + 20`) no sleep happens.  On responses
without that header the claim's description is exact: a sleep of
`delay = secondsToReset / remaining + 1` occurs if and only if
`0 < remaining < 100`, `secondsToReset > 0` and `0 < delay < 10`; the
sentinel `remaining = -1` produces no event at all; and the worked example
sleeps exactly `7/5 = 1.4` seconds. -/
theorem check_rate_limit_throttle_condition :
    (∀ now : Int,
      check_rate_limit_events 50 1000 (now + 20) (some "20") now = [GovEvent.typeErr])
  ∧ (∀ (remaining limit reset now : Int) (d : ℚ),
      GovEvent.sleep d ∈ check_rate_limit_events remaining limit reset none now ↔
        (0 < remaining ∧ remaining < 100 ∧ 0 < secondsToReset reset now ∧
         d = throttleDelay remaining reset now ∧ 0 < d ∧ d < 10))
  ∧ (∀ limit reset now : Int,
      check_rate_limit_events (-1) limit reset none now = [])
  ∧ (∀ limit now : Int,
      check_rate_limit_events 50 limit (now + 20) none now
        = [GovEvent.sleep (7 / 5)]) := by
  refine ⟨fun now => rfl, ?_, ?_, ?_⟩
  · intro remaining limit reset now d
    show GovEvent.sleep d ∈
        (if 0 < remaining ∧ remaining < 100 ∧ 0 < secondsToReset reset now then
          (if 0 < throttleDelay remaining reset now ∧ throttleDelay remaining reset now < 10
           then [GovEvent.sleep (throttleDelay remaining reset now)] else [])
         else []) ++ (if remaining = 0 then [GovEvent.exitProc] else []) ↔ _
    by_cases hc : 0 < remaining ∧ remaining < 100 ∧ 0 < secondsToReset reset now
    · have hne : ¬ remaining = 0 := by omega
      rw [if_pos hc, if_neg hne, List.append_nil]
      by_cases hd : 0 < throttleDelay remaining reset now ∧
          throttleDelay remaining reset now < 10
      · rw [if_pos hd]
        simp only [List.mem_singleton, GovEvent.sleep.injEq]
        constructor
        · rintro rfl
          exact ⟨hc.1, hc.2.1, hc.2.2, rfl, hd.1, hd.2⟩
        · rintro ⟨-, -, -, rfl, -, -⟩
          rfl
      · rw [if_neg hd]
        simp only [List.not_mem_nil, false_iff]
        rintro ⟨-, -, -, rfl, hd1, hd2⟩
        exact hd ⟨hd1, hd2⟩
    · rw [if_neg hc, List.nil_append]
      constructor
      · intro hmem
        by_cases hz : remaining = 0
        · rw [if_pos hz] at hmem
          simp at hmem
        · rw [if_neg hz] at hmem
          simp at hmem
      · rintro ⟨hr1, hr2, hr3, -⟩
        exact absurd ⟨hr1, hr2, hr3⟩ hc
  · intro limit reset now
    show (if 0 < (-1 : Int) ∧ _ ∧ _ then _ else []) ++
        (if (-1 : Int) = 0 then _ else []) = ([] : List GovEvent)
    rw [if_neg (by omega), if_neg (by omega), List.append_nil]
  · intro limit now
    have h20 : secondsToReset (now + 20) now = 20 := by
      rw [secondsToReset, if_neg (by omega)]
      omega
    have hdelay : throttleDelay 50 (now + 20) now = 7 / 5 := by
      rw [throttleDelay, h20]
      norm_num
    show (if 0 < (50 : Int) ∧ (50 : Int) < 100 ∧ 0 < secondsToReset (now + 20) now then
        (if 0 < throttleDelay 50 (now + 20) now ∧ throttleDelay 50 (now + 20) now < 10
         then [GovEvent.sleep (throttleDelay 50 (now + 20) now)] else [])
       else []) ++ (if (50 : Int) = 0 then [GovEvent.exitProc] else [])
      = [GovEvent.sleep (7 / 5)]
    rw [if_pos ⟨by omega, by omega, by rw [h20]; omega⟩, hdelay,
      if_pos ⟨by norm_num, by norm_num⟩, if_neg (by omega), List.append_nil]

/-- C6: a 401 status makes `check_status` exit the process, and since
`check_status(r)` is called before `check_rate_limit(r)` at every call site,
a 401 trace is a bare process exit with no throttle event whatever the quota
headers hold.  Independently, `X-RateLimit-Remaining` equal to 0 terminates
the process with no sleep: via the governor's `exit(1)`, or — when a
`content-length` header is present — via the uncaught `TypeError` raised
first (nothing runs after either event, so no further request is issued). -/
theorem observe_response_fatal_conditions
    (statusCode remaining limit reset : Int) (clh : Option String) (now : Int) :
    (statusCode = 401 →
      observe_response statusCode remaining limit reset clh now = [GovEvent.exitProc])
  ∧ (remaining = 0 →
      observe_response statusCode remaining limit reset clh now = [GovEvent.exitProc]
    ∨ observe_response statusCode remaining limit reset clh now = [GovEvent.typeErr]) := by
  constructor
  · intro h
    rw [observe_response, if_pos (by simp [check_status_fatal, h])]
  · intro h
    by_cases hs : check_status_fatal statusCode = true
    · left
      rw [observe_response, if_pos hs]
    · rcases clh with _ | s
      · left
        rw [observe_response, if_neg (by simp [hs])]
        show (if 0 < remaining ∧ _ ∧ _ then _ else []) ++
            (if remaining = 0 then [GovEvent.exitProc] else []) = _
        rw [if_neg (by omega), if_pos h, List.nil_append]
      · right
        rw [observe_response, if_neg (by simp [hs])]
        rfl

/-- C7: credential resolution precedence.  A non-empty `GH_TOKEN` (or, that
being empty, a non-empty `GITHUB_TOKEN`) yields the Bearer header even when
username/password variables are also set; the Basic header (base64 of
`username:password`, username falling back from `GH_USERNAME` to
`GITHUB_ACTOR`) is produced only when both token variables are empty and both
a username and `GH_PASSWORD` are non-empty; with nothing relevant set the
resolver returns no credential (and, being a total function, raises
nothing). -/
theorem credential_resolution_precedence (env : Env) :
    (env.GH_TOKEN ≠ "" →
      headers_try_to_add_authorization_from_environment env =
        some ("Bearer " ++ env.GH_TOKEN))
  ∧ (env.GH_TOKEN = "" → env.GITHUB_TOKEN ≠ "" →
      headers_try_to_add_authorization_from_environment env =
        some ("Bearer " ++ env.GITHUB_TOKEN))
  ∧ (env.GH_TOKEN = "" → env.GITHUB_TOKEN = "" → env.GH_USERNAME ≠ "" →
      env.GH_PASSWORD ≠ "" →
      headers_try_to_add_authorization_from_environment env =
        some ("Basic " ++ b64encodeString (env.GH_USERNAME ++ ":" ++ env.GH_PASSWORD)))
  ∧ (env.GH_TOKEN = "" → env.GITHUB_TOKEN = "" → env.GH_USERNAME = "" →
      env.GITHUB_ACTOR ≠ "" → env.GH_PASSWORD ≠ "" →
      headers_try_to_add_authorization_from_environment env =
        some ("Basic " ++ b64encodeString (env.GITHUB_ACTOR ++ ":" ++ env.GH_PASSWORD)))
  ∧ (env.GH_TOKEN = "" → env.GITHUB_TOKEN = "" → env.GH_PASSWORD = "" →
      headers_try_to_add_authorization_from_environment env = none)
  ∧ (env.GH_TOKEN = "" → env.GITHUB_TOKEN = "" → env.GH_USERNAME = "" →
      env.GITHUB_ACTOR = "" →
      headers_try_to_add_authorization_from_environment env = none) := by
  refine ⟨?_, ?_, ?_, ?_, ?_, ?_⟩
  · intro h1
    have htok : resolved_token env = env.GH_TOKEN := by rw [resolved_token, if_neg h1]
    rw [headers_try_to_add_authorization_from_environment, htok,
      if_pos ((string_length_pos _).mpr h1)]
  · intro h1 h2
    have htok : resolved_token env = env.GITHUB_TOKEN := by rw [resolved_token, if_pos h1]
    rw [headers_try_to_add_authorization_from_environment, htok,
      if_pos ((string_length_pos _).mpr h2)]
  · intro h1 h2 h3 h4
    have htok : resolved_token env = "" := by rw [resolved_token, if_pos h1, h2]
    have huser : resolved_username env = env.GH_USERNAME := by
      rw [resolved_username, if_neg h3]
    rw [headers_try_to_add_authorization_from_environment, htok,
      if_neg (by simp), huser,
      if_pos ⟨(string_length_pos _).mpr h3, (string_length_pos _).mpr h4⟩]
  · intro h1 h2 h3 h4 h5
    have htok : resolved_token env = "" := by rw [resolved_token, if_pos h1, h2]
    have huser : resolved_username env = env.GITHUB_ACTOR := by
      rw [resolved_username, if_pos h3]
    rw [headers_try_to_add_authorization_from_environment, htok,
      if_neg (by simp), huser,
      if_pos ⟨(string_length_pos _).mpr h4, (string_length_pos _).mpr h5⟩]
  · intro h1 h2 h3
    have htok : resolved_token env = "" := by rw [resolved_token, if_pos h1, h2]
    rw [headers_try_to_add_authorization_from_environment, htok,
      if_neg (by simp), if_neg (by rw [h3]; simp)]
  · intro h1 h2 h3 h4
    have htok : resolved_token env = "" := by rw [resolved_token, if_pos h1, h2]
    have huser : resolved_username env = "" := by
      rw [resolved_username, if_pos h3, h4]
    rw [headers_try_to_add_authorization_from_environment, htok,
      if_neg (by simp), huser, if_neg (by simp)]

/-- C8: when the artifacts response carries no artifacts collection the step
is the fatal "no artifact found" exit; otherwise the entries are filtered to
the name `"GDS"`, an empty filter result is the fatal "no artifacts for this
project" exit, and the download step is reached exactly when at least one
`"GDS"`-named artifact exists — carrying precisely those artifacts. -/
theorem install_artifacts_gds_selection (arts : List Artifact) :
    install_artifacts_select none = ArtifactsCheck.fatalNoArtifact
  ∧ ((arts.filter (fun a => a.name == "GDS")).length = 0 →
      install_artifacts_select (some arts) = ArtifactsCheck.fatalNoneForProject)
  ∧ (0 < (arts.filter (fun a => a.name == "GDS")).length →
      install_artifacts_select (some arts) =
        ArtifactsCheck.proceed (arts.filter (fun a => a.name == "GDS"))
      ∧ ∀ a ∈ arts.filter (fun a => a.name == "GDS"), a.name = "GDS") := by
  refine ⟨rfl, ?_, ?_⟩
  · intro h
    rw [install_artifacts_select, if_pos h]
  · intro h
    refine ⟨?_, ?_⟩
    · rw [install_artifacts_select, if_neg (by omega)]
    · intro a ha
      have := (List.mem_filter.mp ha).2
      exact (beq_iff_eq).mp this

/-- C9: `fetch_file_from_git` returns nothing when the parsed response has no
`content` field; with `encoding = "base64"` it returns the base64-decoded
bytes of the content; otherwise it returns the content string verbatim.  The
decoder genuinely inverts the encoder: a response whose content is the
base64 encoding of any byte list decodes back to exactly those bytes. -/
theorem fetch_file_content_handling :
    (∀ data : ContentResponse, data.content = none → fetch_file_from_git data = none)
  ∧ (∀ (data : ContentResponse) (c : String), data.content = some c →
      data.encoding = some "base64" →
      fetch_file_from_git data = some (FetchedContent.bytes (b64decode c.data)))
  ∧ (∀ (data : ContentResponse) (c : String), data.content = some c →
      data.encoding ≠ some "base64" →
      fetch_file_from_git data = some (FetchedContent.text c))
  ∧ (∀ bs : List Nat, (∀ b ∈ bs, b < 256) →
      fetch_file_from_git ⟨some (String.mk (b64encodeBytes bs)), some "base64"⟩ =
        some (FetchedContent.bytes bs)) := by
  refine ⟨?_, ?_, ?_, ?_⟩
  · intro data h
    rw [fetch_file_from_git, h]
  · intro data c h1 h2
    rw [fetch_file_from_git, h1]
    simp only [if_pos h2]
  · intro data c h1 h2
    rw [fetch_file_from_git, h1]
    simp only [if_neg h2]
  · intro bs h
    have he : fetch_file_from_git ⟨some (String.mk (b64encodeBytes bs)), some "base64"⟩ =
        some (FetchedContent.bytes (b64decode (b64encodeBytes bs))) := rfl
    rw [he, b64_roundtrip bs h]

end GitUtils
